import Mathlib

/-!
# Verification of the Cred-Resolve-Splitshare ledger core

A shallow embedding of the two algorithmic components of the repository:

* `src/backend/src/utils/splitCalculator.ts` — `calculateSplits` and its three
  policy implementations `calculateEqualSplit`, `calculateExactSplit`,
  `calculatePercentageSplit`;
* the balance-simplification module (`calculateNetBalances`,
  `simplifySettlements`, `getSimplifiedSettlements`).

Modelling conventions:

* JavaScript numbers are modelled as `ℚ` (all the arithmetic the code performs
  on the values of interest — addition, subtraction, multiplication, division,
  `Math.floor`, `Math.round`, `Math.abs`, `Math.min`, comparisons — is exact
  rational arithmetic on the inputs the spec admits).
* Mongo `ObjectId`s are opaque comparable identifiers; we model them as
  `String` (the code itself only ever converts them `toString()` for use as
  map keys and compares them).
* A thrown `Error` is modelled as `Except.error` carrying the message text.
* A JavaScript `Map` preserves insertion order, so a `Map<string, NetBalance>`
  whose values are what the algorithm iterates over is modelled as the list of
  its values in insertion order.
* `Array.prototype.sort` is required by the language spec to be a stable sort,
  and a stable sort with respect to the total preorder induced by the
  comparator has a unique result; we realise it with `List.insertionSort`,
  which is stable in exactly this sense.
-/

namespace SplitShare

/-- JS `Math.floor`. -/
def jsFloor (q : ℚ) : ℤ := ⌊q⌋

/-- JS `Math.round`: rounds half toward positive infinity. -/
def jsRound (q : ℚ) : ℤ := ⌊q + 1/2⌋

/-- `array.map((x, index) => ...)` with an explicit running index. -/
def mapWithIndex (f : ℕ → α → β) : ℕ → List α → List β
  | _, [] => []
  | i, x :: xs => f i x :: mapWithIndex f (i + 1) xs

/-- The `SplitType` enum of `src/backend/src/types`. -/
inductive SplitType
  | EQUAL
  | EXACT
  | PERCENTAGE
deriving DecidableEq, Repr

/-- `SplitInput`: `{ userId, amount? }`; `amount` is the exact amount for
EXACT and the percentage for PERCENTAGE. -/
structure SplitInput where
  userId : String
  amount : Option ℚ
deriving DecidableEq, Repr

/-- `CalculatedSplit`: `{ user, amount, share }`. -/
structure CalculatedSplit where
  user : String
  amount : ℚ
  share : ℚ
deriving DecidableEq, Repr

/-- `calculateEqualSplit` (splitCalculator.ts lines 46–70). -/
def calculateEqualSplit (totalAmount : ℚ) (splits : List SplitInput) :
    Except String (List CalculatedSplit) :=
  if splits.length = 0 then
    .error "At least one participant is required"
  else
    let baseShare : ℚ := (jsFloor (totalAmount / (splits.length : ℚ)) : ℤ)
    let remainder : ℚ := totalAmount - baseShare * (splits.length : ℚ)
    .ok (mapWithIndex (fun index split =>
      let share : ℚ := baseShare + (if (index : ℚ) < remainder then 1 else 0)
      { user := split.userId, amount := share, share := share }) 0 splits)

/-- `calculateExactSplit` (splitCalculator.ts lines 76–104). -/
def calculateExactSplit (totalAmount : ℚ) (splits : List SplitInput) :
    Except String (List CalculatedSplit) :=
  if splits.length = 0 then
    .error "At least one participant is required"
  else if splits.any (fun s => s.amount.isNone || decide (s.amount.getD 0 < 0)) then
    .error "Each split must have a non-negative amount for EXACT split"
  else
    let sum := splits.foldl (fun acc s => acc + s.amount.getD 0) 0
    if 1 < |sum - totalAmount| then
      .error ("Split amounts (" ++ toString sum ++ ") must equal total amount ("
        ++ toString totalAmount ++ ")")
    else
      .ok (splits.map (fun s =>
        { user := s.userId, amount := s.amount.getD 0, share := s.amount.getD 0 }))

/-- `calculatedSplits[0].share += diff` guarded by `calculatedSplits.length > 0`:
add `diff` to the share of the first element, if any. -/
def bumpFirstShare (diff : ℚ) : List CalculatedSplit → List CalculatedSplit
  | [] => []
  | x :: xs => { x with share := x.share + diff } :: xs

/-- `calculatePercentageSplit` (splitCalculator.ts lines 111–156). -/
def calculatePercentageSplit (totalAmount : ℚ) (splits : List SplitInput) :
    Except String (List CalculatedSplit) :=
  if splits.length = 0 then
    .error "At least one participant is required"
  else if splits.any (fun s =>
      s.amount.isNone || decide (s.amount.getD 0 < 0) || decide (100 < s.amount.getD 0)) then
    .error "Each split must have a percentage between 0 and 100"
  else
    let totalPercentage := splits.foldl (fun acc s => acc + s.amount.getD 0) 0
    if 1/100 < |totalPercentage - 100| then
      .error ("Percentages must sum to 100 (got " ++ toString totalPercentage ++ ")")
    else
      let calculatedSplits := splits.map (fun s =>
        { user := s.userId, amount := s.amount.getD 0,
          share := ((jsFloor (totalAmount * s.amount.getD 0 / 100) : ℤ) : ℚ) })
      let calculatedTotal := (calculatedSplits.map (·.share)).sum
      let diff := totalAmount - calculatedTotal
      if 0 < diff then .ok (bumpFirstShare diff calculatedSplits)
      else .ok calculatedSplits

/-- `calculateSplits` (splitCalculator.ts lines 25–40): dispatch on the policy. -/
def calculateSplits (totalAmount : ℚ) (splitType : SplitType)
    (splits : List SplitInput) : Except String (List CalculatedSplit) :=
  match splitType with
  | .EQUAL => calculateEqualSplit totalAmount splits
  | .EXACT => calculateExactSplit totalAmount splits
  | .PERCENTAGE => calculatePercentageSplit totalAmount splits

/-- A `{ userId/_id, userName/name }` pair identifying a participant. -/
structure Party where
  userId : String
  userName : String
deriving DecidableEq, Repr

/-- One directed debt record: `fromUser` owes `toUser` `amount`. -/
structure Obligation where
  fromUser : Party
  toUser : Party
  amount : ℚ
deriving DecidableEq, Repr

/-- `NetBalance`: positive = owed money, negative = owes money. -/
structure NetBalance where
  userId : String
  userName : String
  balance : ℚ
deriving DecidableEq, Repr

/-- `OptimizedSettlement`: a suggested payment from `fromUser` to `toUser`. -/
structure OptimizedSettlement where
  fromUser : Party
  toUser : Party
  amount : ℚ
deriving DecidableEq, Repr

/-- `if (!netBalances.has(id)) netBalances.set(id, {userId, userName, balance: 0})`:
append a fresh zero entry for `id` unless one is present. -/
def setIfAbsent (m : List NetBalance) (id name : String) : List NetBalance :=
  if m.any (fun b => b.userId == id) then m
  else m ++ [{ userId := id, userName := name, balance := 0 }]

/-- `netBalances.get(id)!.balance += delta` (keys are unique in a JS map, so
updating every entry whose key matches is the same mutation). -/
def addBalance (m : List NetBalance) (id : String) (delta : ℚ) : List NetBalance :=
  m.map (fun b => if b.userId == id then { b with balance := b.balance + delta } else b)

/-- The body of the `for (const balance of balances)` loop of
`calculateNetBalances`: debit the `from` user, credit the `to` user. -/
def applyObligation (m : List NetBalance) (ob : Obligation) : List NetBalance :=
  let m1 := addBalance (setIfAbsent m ob.fromUser.userId ob.fromUser.userName)
    ob.fromUser.userId (-ob.amount)
  addBalance (setIfAbsent m1 ob.toUser.userId ob.toUser.userName)
    ob.toUser.userId ob.amount

/-- `calculateNetBalances` (balance simplifier lines 36–71); the returned
`Map` is represented by its values in insertion order. -/
def calculateNetBalances (balances : List Obligation) : List NetBalance :=
  balances.foldl applyObligation []

/-- The greedy two-pointer `while` loop of `simplifySettlements`
(lines 104–135).  Advancing a cursor past a settled entry is dropping the
head of that list; an entry whose updated balance keeps it active stays at
the head with the updated balance. -/
def greedyLoop : List NetBalance → List NetBalance → List OptimizedSettlement
  | [], _ => []
  | _ :: _, [] => []
  | c :: cs, d :: ds =>
    let amount := min c.balance |d.balance|
    let emitted : List OptimizedSettlement :=
      if 1/100 < amount then
        [{ fromUser := { userId := d.userId, userName := d.userName },
           toUser := { userId := c.userId, userName := c.userName },
           amount := ((jsRound amount : ℤ) : ℚ) }]
      else []
    let newCreditors := if c.balance - amount < 1/100 then cs
      else { c with balance := c.balance - amount } :: cs
    let newDebtors := if -(1/100) < d.balance + amount then ds
      else { d with balance := d.balance + amount } :: ds
    emitted ++ greedyLoop newCreditors newDebtors
termination_by cl dl => cl.length + dl.length
decreasing_by
  rcases min_cases c.balance |d.balance| with ⟨hmin, _⟩ | ⟨hmin, _⟩
  · have hc : c.balance - min c.balance |d.balance| < 1/100 := by
      rw [hmin]; norm_num
    rw [dif_pos hc]
    split
    · simp only [List.length_cons]; omega
    · simp only [List.length_cons]; omega
  · have hd : -(1/100) < d.balance + min c.balance |d.balance| := by
      rw [hmin]
      have h0 : (0:ℚ) ≤ d.balance + |d.balance| := by
        rcases abs_cases d.balance with ⟨h, _⟩ | ⟨h, _⟩ <;> linarith
      linarith
    rw [dif_pos hd]
    split
    · simp only [List.length_cons]; omega
    · simp only [List.length_cons]; omega

/-- `simplifySettlements` (lines 82–138): partition the map's values into
creditors and debtors, sort (stable, descending absolute balance), then run
the greedy loop. -/
def simplifySettlements (netBalances : List NetBalance) : List OptimizedSettlement :=
  let creditors := List.insertionSort (fun a b => b.balance ≤ a.balance)
    (netBalances.filter (fun b => decide (1/100 < b.balance)))
  let debtors := List.insertionSort (fun a b => a.balance ≤ b.balance)
    (netBalances.filter (fun b => decide (b.balance < -(1/100))))
  greedyLoop creditors debtors

/-- `getSimplifiedSettlements` (lines 143–152). -/
def getSimplifiedSettlements (balances : List Obligation) : List OptimizedSettlement :=
  simplifySettlements (calculateNetBalances balances)

/-! ## Helper lemmas -/

theorem mapWithIndex_length (f : ℕ → α → β) (i : ℕ) (l : List α) :
    (mapWithIndex f i l).length = l.length := by
  induction l generalizing i with
  | nil => rfl
  | cons x xs ih => simp [mapWithIndex, ih]

theorem mapWithIndex_get (f : ℕ → α → β) (i : ℕ) (l : List α) (k : ℕ)
    (hk : k < (mapWithIndex f i l).length) (hk' : k < l.length) :
    (mapWithIndex f i l).get ⟨k, hk⟩ = f (i + k) (l.get ⟨k, hk'⟩) := by
  induction l generalizing i k with
  | nil => exact absurd hk' (by simp)
  | cons x xs ih =>
    cases k with
    | zero => simp [mapWithIndex]
    | succ n =>
      have hn : n < xs.length := by simpa using hk'
      have hn2 : n < (mapWithIndex f (i + 1) xs).length := by
        rw [mapWithIndex_length]; exact hn
      simp only [mapWithIndex, List.get_cons_succ]
      rw [ih]
      congr 1
      omega

theorem bumpFirstShare_length (d : ℚ) (l : List CalculatedSplit) :
    (bumpFirstShare d l).length = l.length := by
  cases l <;> rfl

theorem bumpFirstShare_get_user (d : ℚ) (l : List CalculatedSplit) (k : ℕ)
    (hk : k < (bumpFirstShare d l).length) (hk' : k < l.length) :
    ((bumpFirstShare d l).get ⟨k, hk⟩).user = (l.get ⟨k, hk'⟩).user := by
  cases l with
  | nil => exact absurd hk' (by simp)
  | cons x xs => cases k <;> rfl

theorem bumpFirstShare_map_amount (d : ℚ) (l : List CalculatedSplit) :
    (bumpFirstShare d l).map (·.amount) = l.map (·.amount) := by
  cases l <;> simp [bumpFirstShare]

/-! ## Claims -/

/-- **C7.** For every total amount and each of the three recognized policies,
`calculateSplits` on an empty input list fails with the
"at least one participant required" error and returns no split list. -/
theorem C7_empty_inputs_fail (totalAmount : ℚ) (splitType : SplitType) :
    calculateSplits totalAmount splitType [] =
      .error "At least one participant is required" := by
  cases splitType <;> rfl

/-- **C9.** Whenever `calculateSplits` succeeds (under any of the three
policies), the result has exactly one `CalculatedSplit` per input, in the same
order: the i-th output's user identifier is the i-th input's participant
identifier. -/
theorem C9_output_parallels_input (totalAmount : ℚ) (splitType : SplitType)
    (splits : List SplitInput) (res : List CalculatedSplit)
    (h : calculateSplits totalAmount splitType splits = .ok res) :
    res.length = splits.length ∧
      ∀ k (hk : k < res.length) (hk' : k < splits.length),
        (res.get ⟨k, hk⟩).user = (splits.get ⟨k, hk'⟩).userId := by
  cases splitType with
  | EQUAL =>
    simp only [calculateSplits, calculateEqualSplit] at h
    split at h
    · exact absurd h (by simp)
    · simp only [Except.ok.injEq] at h
      subst h
      refine ⟨mapWithIndex_length _ _ _, ?_⟩
      intro k hk hk'
      rw [mapWithIndex_get _ _ _ _ _ hk']
  | EXACT =>
    simp only [calculateSplits, calculateExactSplit] at h
    split at h
    · exact absurd h (by simp)
    · split at h
      · exact absurd h (by simp)
      · split at h
        · exact absurd h (by simp)
        · simp only [Except.ok.injEq] at h
          subst h
          refine ⟨List.length_map _ _, ?_⟩
          intro k hk hk'
          simp
  | PERCENTAGE =>
    simp only [calculatePercentageSplit, calculateSplits] at h
    split at h
    · exact absurd h (by simp)
    · split at h
      · exact absurd h (by simp)
      · split at h
        · exact absurd h (by simp)
        · split at h
          · simp only [Except.ok.injEq] at h
            subst h
            constructor
            · rw [bumpFirstShare_length, List.length_map]
            · intro k hk hk'
              have hk2 : k < (splits.map (fun s =>
                  ({ user := s.userId, amount := s.amount.getD 0,
                     share := ((jsFloor (totalAmount * s.amount.getD 0 / 100) : ℤ) : ℚ) } :
                    CalculatedSplit))).length := by
                rw [List.length_map]; exact hk'
              rw [bumpFirstShare_get_user _ _ _ _ hk2]
              simp
          · simp only [Except.ok.injEq] at h
            subst h
            refine ⟨List.length_map _ _, ?_⟩
            intro k hk hk'
            simp

/-- **C9 witness**: `calculateSplits 100 EQUAL [P1, P2]` succeeds with two
aligned outputs. -/
theorem C9_output_parallels_input_witness :
    ([⟨"P1", 50, 50⟩, ⟨"P2", 50, 50⟩] : List CalculatedSplit).length =
        ([⟨"P1", none⟩, ⟨"P2", none⟩] : List SplitInput).length ∧
      ∀ k (hk : k < ([⟨"P1", 50, 50⟩, ⟨"P2", 50, 50⟩] : List CalculatedSplit).length)
        (hk' : k < ([⟨"P1", none⟩, ⟨"P2", none⟩] : List SplitInput).length),
        ((([⟨"P1", 50, 50⟩, ⟨"P2", 50, 50⟩] : List CalculatedSplit)).get ⟨k, hk⟩).user =
          ((([⟨"P1", none⟩, ⟨"P2", none⟩] : List SplitInput)).get ⟨k, hk'⟩).userId :=
  C9_output_parallels_input 100 .EQUAL [⟨"P1", none⟩, ⟨"P2", none⟩]
    [⟨"P1", 50, 50⟩, ⟨"P2", 50, 50⟩] (by
      show calculateEqualSplit 100 [⟨"P1", none⟩, ⟨"P2", none⟩] = _
      simp only [calculateEqualSplit, mapWithIndex]
      norm_num [jsFloor, mapWithIndex])

/-- **C4.** For EXACT inputs that are all present and non-negative,
`calculateSplits` fails — with an error reporting both the input sum and the
total — exactly when `|sum − totalAmount| > 1`; otherwise it succeeds and
every participant's `share` and `amount` both equal their raw amount
verbatim, with no rescaling. -/
theorem C4_exact_split (totalAmount : ℚ) (splits : List SplitInput)
    (hne : splits ≠ [])
    (hamt : ∀ s ∈ splits, ∃ a, s.amount = some a ∧ 0 ≤ a) :
    (1 < |splits.foldl (fun acc s => acc + s.amount.getD 0) 0 - totalAmount| →
      calculateSplits totalAmount .EXACT splits =
        .error ("Split amounts ("
          ++ toString (splits.foldl (fun acc s => acc + s.amount.getD 0) 0)
          ++ ") must equal total amount (" ++ toString totalAmount ++ ")")) ∧
    (|splits.foldl (fun acc s => acc + s.amount.getD 0) 0 - totalAmount| ≤ 1 →
      calculateSplits totalAmount .EXACT splits =
        .ok (splits.map (fun s =>
          { user := s.userId, amount := s.amount.getD 0, share := s.amount.getD 0 }))) := by
  have hlen : ¬ splits.length = 0 := fun h => hne (List.length_eq_zero.mp h)
  have hany : (splits.any (fun s => s.amount.isNone || decide (s.amount.getD 0 < 0))) = false := by
    rw [List.any_eq_false]
    intro s hs
    obtain ⟨a, ha, ha0⟩ := hamt s hs
    simp [ha, not_lt.mpr ha0]
  constructor
  · intro hgt
    simp only [calculateSplits, calculateExactSplit, if_neg hlen, hany, Bool.false_eq_true,
      if_false, if_pos hgt]
  · intro hle
    simp only [calculateSplits, calculateExactSplit, if_neg hlen, hany, Bool.false_eq_true,
      if_false, if_neg (not_lt.mpr hle)]

/-- **C4 witness**: `calculateSplits(1000, EXACT, [{P1,600},{P2,400}])`
returns the amounts verbatim. -/
theorem C4_exact_split_witness :
    calculateSplits 1000 .EXACT [⟨"P1", some 600⟩, ⟨"P2", some 400⟩] =
      .ok [⟨"P1", 600, 600⟩, ⟨"P2", 400, 400⟩] := by
  have h := (C4_exact_split 1000 [⟨"P1", some 600⟩, ⟨"P2", some 400⟩]
    (by simp)
    (by
      intro s hs
      rcases List.mem_cons.mp hs with rfl | hs
      · exact ⟨600, rfl, by norm_num⟩
      · rcases List.mem_cons.mp hs with rfl | hs
        · exact ⟨400, rfl, by norm_num⟩
        · simp at hs)).2 (by norm_num [List.foldl])
  simpa using h

theorem map_mapWithIndex (f : ℕ → α → β) (g : β → γ) (i : ℕ) (l : List α) :
    (mapWithIndex f i l).map g = mapWithIndex (fun k x => g (f k x)) i l := by
  induction l generalizing i with
  | nil => rfl
  | cons x xs ih => simp [mapWithIndex, ih]

theorem mapWithIndex_eq_range'_map (g : ℕ → β) (f : ℕ → α → β)
    (hf : ∀ k x, f k x = g k) (i : ℕ) (l : List α) :
    mapWithIndex f i l = (List.range' i l.length).map g := by
  induction l generalizing i with
  | nil => rfl
  | cons x xs ih => simp [mapWithIndex, List.range', hf, ih]

theorem sum_range_base_indicator (b : ℚ) (r : ℕ) (n : ℕ) :
    ((List.range n).map (fun k => b + (if k < r then (1:ℚ) else 0))).sum
      = n * b + (min r n : ℕ) := by
  induction n with
  | zero => simp
  | succ m ih =>
    rw [List.range_succ, List.map_append, List.sum_append]
    simp only [List.map_cons, List.map_nil, List.sum_cons, List.sum_nil]
    rw [ih]
    rcases lt_or_ge m r with h | h
    · rw [if_pos h]
      have hmin : min r (m + 1) = min r m + 1 := by omega
      rw [hmin]
      push_cast
      ring
    · rw [if_neg (not_lt.mpr h)]
      have hmin : min r (m + 1) = min r m := by omega
      rw [hmin]
      push_cast
      ring

theorem mapWithIndex_getElem? (f : ℕ → α → β) (i : ℕ) (l : List α) (k : ℕ) :
    (mapWithIndex f i l)[k]? = l[k]?.map (f (i + k)) := by
  induction l generalizing i k with
  | nil => simp [mapWithIndex]
  | cons x xs ih =>
    cases k with
    | zero => simp [mapWithIndex]
    | succ m =>
      simp only [mapWithIndex, List.getElem?_cons_succ]
      rw [ih, show i + 1 + m = i + (m + 1) by omega]

/-- The successful result of `calculateEqualSplit` (the code's `splits.map`),
spelled out. -/
def equalSplitResult (totalAmount : ℚ) (splits : List SplitInput) : List CalculatedSplit :=
  mapWithIndex (fun index split =>
    let share : ℚ := ((jsFloor (totalAmount / (splits.length : ℚ)) : ℤ) : ℚ)
      + (if (index : ℚ) < totalAmount
            - ((jsFloor (totalAmount / (splits.length : ℚ)) : ℤ) : ℚ) * (splits.length : ℚ)
          then 1 else 0)
    { user := split.userId, amount := share, share := share }) 0 splits

theorem calculateEqualSplit_ok (totalAmount : ℚ) (splits : List SplitInput)
    (hlen : ¬ splits.length = 0) :
    calculateEqualSplit totalAmount splits = .ok (equalSplitResult totalAmount splits) := by
  simp only [calculateEqualSplit, equalSplitResult, if_neg hlen]

theorem equalSplitResult_entry (totalAmount : ℚ) (splits : List SplitInput)
    (k : ℕ) (s : CalculatedSplit)
    (hs : (equalSplitResult totalAmount splits)[k]? = some s) :
    s.share = ((jsFloor (totalAmount / (splits.length : ℚ)) : ℤ) : ℚ)
        + (if (k : ℚ) < totalAmount
              - ((jsFloor (totalAmount / (splits.length : ℚ)) : ℤ) : ℚ) * (splits.length : ℚ)
            then 1 else 0)
      ∧ s.amount = s.share := by
  rw [equalSplitResult, mapWithIndex_getElem?] at hs
  cases h : splits[k]? with
  | none => rw [h] at hs; simp at hs
  | some x =>
    rw [h] at hs
    simp only [Option.map_some', Option.some.injEq] at hs
    subst hs
    constructor
    · simp [Nat.zero_add]
    · rfl

/-- **C3.** For every integer `totalAmount > 0` and non-empty EQUAL input
list of length `n`, `calculateSplits` succeeds with one share per
participant, `sum(share) = totalAmount`, every share `⌊totalAmount/n⌋` or
that plus one (so max − min ≤ 1), exactly the first `totalAmount mod n`
participants in input order getting the larger share, and `amount = share`. -/
theorem C3_equal_split (totalAmount : ℤ) (hT : 0 < totalAmount)
    (splits : List SplitInput) (hne : splits ≠ []) :
    ∃ res, calculateSplits (totalAmount : ℚ) .EQUAL splits = .ok res ∧
      res.length = splits.length ∧
      (res.map (·.share)).sum = (totalAmount : ℚ) ∧
      (∀ s₁ ∈ res, ∀ s₂ ∈ res, s₁.share - s₂.share ≤ 1) ∧
      (∀ s ∈ res, s.share = ((totalAmount / (splits.length : ℤ) : ℤ) : ℚ) ∨
        s.share = ((totalAmount / (splits.length : ℤ) : ℤ) : ℚ) + 1) ∧
      (∀ k s, res[k]? = some s →
        (s.share = ((totalAmount / (splits.length : ℤ) : ℤ) : ℚ) + 1 ↔
          k < (totalAmount % (splits.length : ℤ)).toNat)) ∧
      (∀ s ∈ res, s.amount = s.share) := by
  have hlen : ¬ splits.length = 0 := fun h => hne (List.length_eq_zero.mp h)
  have hn : 0 < splits.length := Nat.pos_of_ne_zero hlen
  have hnZ : (0:ℤ) < (splits.length : ℤ) := by exact_mod_cast hn
  set n : ℕ := splits.length with hn_def
  set q : ℤ := totalAmount / (n : ℤ) with hq_def
  set r : ℤ := totalAmount % (n : ℤ) with hr_def
  have hr0 : 0 ≤ r := Int.emod_nonneg _ (by omega)
  have hrn : r < (n : ℤ) := Int.emod_lt_of_pos _ hnZ
  have hdiv : (n : ℤ) * q + r = totalAmount := Int.ediv_add_emod _ _
  have hdivQ : ((n : ℕ) : ℚ) * ((q : ℤ) : ℚ) + ((r : ℤ) : ℚ) = ((totalAmount : ℤ) : ℚ) := by
    exact_mod_cast congrArg (fun z : ℤ => (z : ℚ)) hdiv
  -- the floored base share
  have hbase : jsFloor ((totalAmount : ℚ) / (n : ℚ)) = q := by
    rw [jsFloor, hq_def]
    exact_mod_cast Rat.floor_intCast_div_natCast totalAmount n
  -- the remainder computed by the code is the integer remainder
  have hrem : (totalAmount : ℚ) - ((jsFloor ((totalAmount : ℚ) / (n : ℚ)) : ℤ) : ℚ) * (n : ℚ)
      = ((r : ℤ) : ℚ) := by
    rw [hbase]
    push_cast at hdivQ ⊢
    linarith
  -- the indicator condition over ℚ is the Nat comparison with r.toNat
  have hcond : ∀ k : ℕ, (((k : ℕ) : ℚ) < ((r : ℤ) : ℚ)) ↔ k < r.toNat := by
    intro k
    constructor
    · intro h
      have hz : (k : ℤ) < r := by exact_mod_cast h
      omega
    · intro h
      have hz : (k : ℤ) < r := by omega
      exact_mod_cast hz
  -- the share formula, in integer terms
  have hshare : ∀ k s, (equalSplitResult (totalAmount : ℚ) splits)[k]? = some s →
      s.share = ((q : ℤ) : ℚ) + (if k < r.toNat then (1:ℚ) else 0) ∧ s.amount = s.share := by
    intro k s hs
    obtain ⟨h1, h2⟩ := equalSplitResult_entry _ _ _ _ hs
    refine ⟨?_, h2⟩
    rw [h1, hrem, hbase]
    congr 1
    rcases Classical.em (k < r.toNat) with h | h
    · rw [if_pos ((hcond k).mpr h), if_pos h]
    · rw [if_neg (fun hq2 => h ((hcond k).mp hq2)), if_neg h]
  have hlength : (equalSplitResult (totalAmount : ℚ) splits).length = n := by
    rw [equalSplitResult, mapWithIndex_length]
  refine ⟨equalSplitResult (totalAmount : ℚ) splits,
    calculateEqualSplit_ok _ _ hlen, hlength, ?_, ?_, ?_, ?_, ?_⟩
  · -- sum of shares
    have hmap : (equalSplitResult (totalAmount : ℚ) splits).map (·.share)
        = (List.range n).map (fun k => ((q : ℤ) : ℚ) + (if k < r.toNat then (1:ℚ) else 0)) := by
      apply List.ext_getElem?
      intro k
      rw [List.getElem?_map, List.getElem?_map]
      rcases Classical.em (k < n) with hk | hk
      · have hk1 : k < (equalSplitResult (totalAmount : ℚ) splits).length := by
          rw [hlength]; exact hk
        have hs : (equalSplitResult (totalAmount : ℚ) splits)[k]?
            = some ((equalSplitResult (totalAmount : ℚ) splits).get ⟨k, hk1⟩) :=
          List.getElem?_eq_some_iff.mpr ⟨hk1, rfl⟩
        rw [hs, List.getElem?_range hk]
        simp only [Option.map_some']
        congr 1
        exact (hshare k _ hs).1
      · have h1 : (equalSplitResult (totalAmount : ℚ) splits)[k]? = none := by
          rw [List.getElem?_eq_none_iff, hlength]; omega
        have h2 : (List.range n)[k]? = none := by
          rw [List.getElem?_eq_none_iff, List.length_range]; omega
        rw [h1, h2]
        rfl
    rw [hmap, sum_range_base_indicator]
    have hminr : min r.toNat n = r.toNat := by omega
    rw [hminr]
    rw [show ((r.toNat : ℕ) : ℚ) = ((r : ℤ) : ℚ) by
      exact_mod_cast congrArg (fun z : ℤ => (z : ℚ)) (Int.toNat_of_nonneg hr0)]
    push_cast at hdivQ ⊢
    linarith
  · -- pairwise difference at most one
    intro s₁ hs₁ s₂ hs₂
    obtain ⟨k₁, e₁⟩ := List.mem_iff_getElem?.mp hs₁
    obtain ⟨k₂, e₂⟩ := List.mem_iff_getElem?.mp hs₂
    obtain ⟨h₁, -⟩ := hshare k₁ s₁ e₁
    obtain ⟨h₂, -⟩ := hshare k₂ s₂ e₂
    rw [h₁, h₂]
    split_ifs <;> linarith
  · -- every share is the base or the base plus one
    intro s hs
    obtain ⟨k, e⟩ := List.mem_iff_getElem?.mp hs
    obtain ⟨h1, -⟩ := hshare k s e
    rw [h1]
    split_ifs
    · right; rfl
    · left; ring
  · -- the first `totalAmount mod n` participants get the extra unit
    intro k s hs
    obtain ⟨h1, -⟩ := hshare k s hs
    rw [h1]
    constructor
    · intro hshare1
      by_contra hnot
      rw [if_neg hnot] at hshare1
      simp at hshare1
    · intro hlt
      rw [if_pos hlt]
  · -- amount equals share
    intro s hs
    obtain ⟨k, e⟩ := List.mem_iff_getElem?.mp hs
    exact (hshare k s e).2

/-- **C3 witness**: `calculateSplits(100, EQUAL, [P1,P2,P3])` → shares
`[34,33,33]`, summing to 100, first `100 mod 3 = 1` participant larger. -/
theorem C3_equal_split_witness :
    ∃ res, calculateSplits ((100 : ℤ) : ℚ) .EQUAL
        [⟨"P1", none⟩, ⟨"P2", none⟩, ⟨"P3", none⟩] = .ok res ∧
      res.length = ([⟨"P1", none⟩, ⟨"P2", none⟩, ⟨"P3", none⟩] : List SplitInput).length ∧
      (res.map (·.share)).sum = ((100 : ℤ) : ℚ) ∧
      (∀ s₁ ∈ res, ∀ s₂ ∈ res, s₁.share - s₂.share ≤ 1) ∧
      (∀ s ∈ res, s.share = (((100 : ℤ) / (([⟨"P1", none⟩, ⟨"P2", none⟩, ⟨"P3", none⟩] :
            List SplitInput).length : ℤ) : ℤ) : ℚ) ∨
        s.share = (((100 : ℤ) / (([⟨"P1", none⟩, ⟨"P2", none⟩, ⟨"P3", none⟩] :
            List SplitInput).length : ℤ) : ℤ) : ℚ) + 1) ∧
      (∀ k s, res[k]? = some s →
        (s.share = (((100 : ℤ) / (([⟨"P1", none⟩, ⟨"P2", none⟩, ⟨"P3", none⟩] :
            List SplitInput).length : ℤ) : ℤ) : ℚ) + 1 ↔
          k < ((100 : ℤ) % (([⟨"P1", none⟩, ⟨"P2", none⟩, ⟨"P3", none⟩] :
            List SplitInput).length : ℤ)).toNat)) ∧
      (∀ s ∈ res, s.amount = s.share) :=
  C3_equal_split 100 (by norm_num) [⟨"P1", none⟩, ⟨"P2", none⟩, ⟨"P3", none⟩] (by simp)

/-- The floored share `Math.floor((totalAmount * percentage) / 100)` of one
PERCENTAGE input. -/
def percentageFlooredShare (totalAmount : ℚ) (s : SplitInput) : ℚ :=
  ((jsFloor (totalAmount * s.amount.getD 0 / 100) : ℤ) : ℚ)

/-- The `calculatedSplits` array of `calculatePercentageSplit` before the
rounding-difference adjustment. -/
def percentagePreliminary (totalAmount : ℚ) (splits : List SplitInput) : List CalculatedSplit :=
  splits.map (fun s =>
    { user := s.userId, amount := s.amount.getD 0,
      share := percentageFlooredShare totalAmount s })

/-- The `diff = totalAmount - calculatedTotal` of `calculatePercentageSplit`. -/
def percentageDiff (totalAmount : ℚ) (splits : List SplitInput) : ℚ :=
  totalAmount - ((percentagePreliminary totalAmount splits).map (·.share)).sum

theorem calculatePercentageSplit_ok (totalAmount : ℚ) (splits : List SplitInput)
    (hlen : ¬ splits.length = 0)
    (hany : (splits.any (fun s => s.amount.isNone || decide (s.amount.getD 0 < 0)
      || decide (100 < s.amount.getD 0))) = false)
    (htol : ¬ (1/100 < |splits.foldl (fun acc s => acc + s.amount.getD 0) 0 - 100|)) :
    calculatePercentageSplit totalAmount splits =
      .ok (if 0 < percentageDiff totalAmount splits
        then bumpFirstShare (percentageDiff totalAmount splits)
          (percentagePreliminary totalAmount splits)
        else percentagePreliminary totalAmount splits) := by
  simp only [calculatePercentageSplit, percentageDiff, percentagePreliminary,
    percentageFlooredShare, if_neg hlen, hany, Bool.false_eq_true, if_false, if_neg htol]
  rw [apply_ite Except.ok]

theorem foldl_add_eq_sum (f : α → ℚ) (l : List α) (a : ℚ) :
    l.foldl (fun acc s => acc + f s) a = a + (l.map f).sum := by
  induction l generalizing a with
  | nil => simp
  | cons x xs ih => simp [ih]; ring

theorem bumpFirstShare_sum (d : ℚ) (l : List CalculatedSplit) (hne : l ≠ []) :
    ((bumpFirstShare d l).map (·.share)).sum = (l.map (·.share)).sum + d := by
  cases l with
  | nil => exact absurd rfl hne
  | cons x xs => simp [bumpFirstShare]; ring

theorem bumpFirstShare_getElem?_succ (d : ℚ) (l : List CalculatedSplit) (m : ℕ) :
    (bumpFirstShare d l)[m + 1]? = l[m + 1]? := by
  cases l <;> rfl

/-- The sum of the floored shares is at most the (integer) total, provided
the percentages sum to at most 100. -/
theorem percentage_floor_sum_le (totalAmount : ℤ) (hT : 0 < totalAmount)
    (splits : List SplitInput)
    (hsum_le : (splits.map (fun s => s.amount.getD 0)).sum ≤ 100) :
    ((percentagePreliminary (totalAmount : ℚ) splits).map (·.share)).sum
      ≤ (totalAmount : ℚ) := by
  have h1 : ((percentagePreliminary (totalAmount : ℚ) splits).map (·.share)).sum
      = (splits.map (fun s => percentageFlooredShare (totalAmount : ℚ) s)).sum := by
    rw [percentagePreliminary, List.map_map]
    rfl
  have h2 : (splits.map (fun s => percentageFlooredShare (totalAmount : ℚ) s)).sum
      ≤ (splits.map (fun s => ((totalAmount : ℚ) / 100) * s.amount.getD 0)).sum := by
    apply List.sum_le_sum
    intro s _
    rw [percentageFlooredShare, jsFloor]
    calc ((⌊(totalAmount : ℚ) * s.amount.getD 0 / 100⌋ : ℤ) : ℚ)
        ≤ (totalAmount : ℚ) * s.amount.getD 0 / 100 := Int.floor_le _
      _ = ((totalAmount : ℚ) / 100) * s.amount.getD 0 := by ring
  have h3 : (splits.map (fun s => ((totalAmount : ℚ) / 100) * s.amount.getD 0)).sum
      = ((totalAmount : ℚ) / 100) * (splits.map (fun s => s.amount.getD 0)).sum :=
    List.sum_map_mul_left _ _ _
  have hT' : (0:ℚ) ≤ (totalAmount : ℚ) / 100 := by positivity
  have h4 : ((totalAmount : ℚ) / 100) * (splits.map (fun s => s.amount.getD 0)).sum
      ≤ ((totalAmount : ℚ) / 100) * 100 := by
    exact mul_le_mul_of_nonneg_left hsum_le hT'
  have h5 : ((totalAmount : ℚ) / 100) * 100 = (totalAmount : ℚ) := by ring
  rw [h1]
  linarith

/-- **C1 (amended).** For integer `totalAmount > 0` and non-empty PERCENTAGE
inputs with raw amounts in `[0,100]` whose sum lies within `0.01` of 100
*and does not exceed 100*, `calculateSplits` succeeds, the shares sum to
`totalAmount` exactly, every non-first share is
`⌊totalAmount * percentage / 100⌋`, the first share is its floor plus the
(non-negative) diff, and each output's `amount` stores the raw
percentage. -/
theorem C1_percentage_split_amended (totalAmount : ℤ) (hT : 0 < totalAmount)
    (splits : List SplitInput) (hne : splits ≠ [])
    (hp : ∀ s ∈ splits, ∃ p, s.amount = some p ∧ 0 ≤ p ∧ p ≤ 100)
    (htol : |splits.foldl (fun acc s => acc + s.amount.getD 0) 0 - 100| ≤ 1/100)
    (hle : splits.foldl (fun acc s => acc + s.amount.getD 0) 0 ≤ 100) :
    ∃ res, calculateSplits (totalAmount : ℚ) .PERCENTAGE splits = .ok res ∧
      res.length = splits.length ∧
      (res.map (·.share)).sum = (totalAmount : ℚ) ∧
      res.map (·.amount) = splits.map (fun s => s.amount.getD 0) ∧
      (∀ (k : ℕ) (s : CalculatedSplit) (t : SplitInput),
        res[k]? = some s → splits[k]? = some t → 0 < k →
        s.share = percentageFlooredShare (totalAmount : ℚ) t) ∧
      (∀ (s : CalculatedSplit) (t : SplitInput), res[0]? = some s → splits[0]? = some t →
        s.share = percentageFlooredShare (totalAmount : ℚ) t
          + (if 0 < percentageDiff (totalAmount : ℚ) splits
              then percentageDiff (totalAmount : ℚ) splits else 0)) := by
  have hlen : ¬ splits.length = 0 := fun h => hne (List.length_eq_zero.mp h)
  have hany : (splits.any (fun s => s.amount.isNone || decide (s.amount.getD 0 < 0)
      || decide (100 < s.amount.getD 0))) = false := by
    rw [List.any_eq_false]
    intro s hs
    obtain ⟨p, hp1, hp2, hp3⟩ := hp s hs
    simp [hp1, not_lt.mpr hp2, not_lt.mpr hp3]
  have hsum_le : (splits.map (fun s => s.amount.getD 0)).sum ≤ 100 := by
    have := hle
    rw [foldl_add_eq_sum, zero_add] at this
    exact this
  have hdiff0 : 0 ≤ percentageDiff (totalAmount : ℚ) splits := by
    rw [percentageDiff, sub_nonneg]
    exact percentage_floor_sum_le totalAmount hT splits hsum_le
  have hok := calculatePercentageSplit_ok (totalAmount : ℚ) splits hlen hany
    (not_lt.mpr htol)
  have hpre_len : (percentagePreliminary (totalAmount : ℚ) splits).length = splits.length := by
    rw [percentagePreliminary, List.length_map]
  have hpre_amount : (percentagePreliminary (totalAmount : ℚ) splits).map (·.amount)
      = splits.map (fun s => s.amount.getD 0) := by
    rw [percentagePreliminary, List.map_map]
    rfl
  have hpre_ne : percentagePreliminary (totalAmount : ℚ) splits ≠ [] := by
    intro h
    exact hlen (by rw [← hpre_len, h]; rfl)
  have hpre_get : ∀ (k : ℕ) (s : CalculatedSplit) (t : SplitInput),
      (percentagePreliminary (totalAmount : ℚ) splits)[k]? = some s →
      splits[k]? = some t → s.share = percentageFlooredShare (totalAmount : ℚ) t := by
    intro k s t h1 h2
    rw [percentagePreliminary, List.getElem?_map, h2, Option.map_some',
      Option.some.injEq] at h1
    rw [← h1]
  rcases Classical.em (0 < percentageDiff (totalAmount : ℚ) splits) with hpos | hpos
  · rw [if_pos hpos] at hok
    refine ⟨_, by rw [calculateSplits]; exact hok, ?_, ?_, ?_, ?_, ?_⟩
    · rw [bumpFirstShare_length, hpre_len]
    · rw [bumpFirstShare_sum _ _ hpre_ne, percentageDiff]
      ring
    · rw [bumpFirstShare_map_amount, hpre_amount]
    · intro k s t h1 h2 hk
      obtain ⟨m, rfl⟩ : ∃ m, k = m + 1 := ⟨k - 1, by omega⟩
      rw [bumpFirstShare_getElem?_succ] at h1
      exact hpre_get _ _ _ h1 h2
    · intro s t h1 h2
      cases hx : percentagePreliminary (totalAmount : ℚ) splits with
      | nil => exact absurd hx hpre_ne
      | cons x xs =>
        rw [hx] at h1
        simp only [bumpFirstShare, List.getElem?_cons_zero, Option.some.injEq] at h1
        have hx0 : (percentagePreliminary (totalAmount : ℚ) splits)[0]? = some x := by
          rw [hx]; simp
        have := hpre_get 0 x t hx0 h2
        rw [← h1, if_pos hpos]
        simp only
        rw [this]
  · rw [if_neg hpos] at hok
    have hdiff_eq : percentageDiff (totalAmount : ℚ) splits = 0 := le_antisymm (not_lt.mp hpos) hdiff0
    refine ⟨_, by rw [calculateSplits]; exact hok, hpre_len, ?_, hpre_amount, ?_, ?_⟩
    · have := hdiff_eq
      rw [percentageDiff, sub_eq_zero] at this
      exact this.symm
    · intro k s t h1 h2 _
      exact hpre_get _ _ _ h1 h2
    · intro s t h1 h2
      rw [if_neg hpos, add_zero]
      exact hpre_get 0 s t h1 h2

/-- **C1 counterexample.** The claim as stated is false: with
`totalAmount = 10000` and percentages `[100, 0.01]` — each in `[0,100]`,
summing to `100.01`, within the `0.01` tolerance — `calculateSplits`
succeeds but the shares sum to `10001 ≠ 10000` (the floored shares already
exceed the total and the negative diff is not corrected). -/
theorem C1_percentage_split_counterexample :
    calculateSplits 10000 .PERCENTAGE [⟨"P1", some 100⟩, ⟨"P2", some (1/100)⟩]
        = .ok [⟨"P1", 100, 10000⟩, ⟨"P2", 1/100, 1⟩]
      ∧ (0:ℚ) < 10000
      ∧ (∀ s ∈ ([⟨"P1", some 100⟩, ⟨"P2", some (1/100)⟩] : List SplitInput),
          ∃ p, s.amount = some p ∧ 0 ≤ p ∧ p ≤ 100)
      ∧ |(([⟨"P1", some 100⟩, ⟨"P2", some (1/100)⟩] : List SplitInput).foldl
          (fun acc s => acc + s.amount.getD 0) 0) - 100| ≤ 1/100
      ∧ (([⟨"P1", (100:ℚ), 10000⟩, ⟨"P2", 1/100, 1⟩] : List CalculatedSplit).map
          (·.share)).sum ≠ 10000 := by
  refine ⟨?_, by norm_num, ?_, ?_, ?_⟩
  · show calculatePercentageSplit 10000 _ = _
    norm_num [calculatePercentageSplit, List.any_cons, List.any_nil, List.foldl,
      jsFloor, bumpFirstShare, lt_abs, abs_le]
  · intro s hs
    rcases List.mem_cons.mp hs with rfl | hs
    · exact ⟨100, rfl, by norm_num, by norm_num⟩
    · rcases List.mem_cons.mp hs with rfl | hs
      · exact ⟨1/100, rfl, by norm_num, by norm_num⟩
      · simp at hs
  · norm_num [List.foldl, abs_le]
  · norm_num

/-- **C1 witness** for the amended theorem:
`calculateSplits(1000, PERCENTAGE, [{P1,60},{P2,40}])` sums to 1000. -/
theorem C1_percentage_split_amended_witness :
    ∃ res, calculateSplits ((1000 : ℤ) : ℚ) .PERCENTAGE
        [⟨"P1", some 60⟩, ⟨"P2", some 40⟩] = .ok res ∧
      res.length = ([⟨"P1", some 60⟩, ⟨"P2", some 40⟩] : List SplitInput).length ∧
      (res.map (·.share)).sum = ((1000 : ℤ) : ℚ) ∧
      res.map (·.amount) = ([⟨"P1", some 60⟩, ⟨"P2", some 40⟩] : List SplitInput).map
        (fun s => s.amount.getD 0) ∧
      (∀ (k : ℕ) (s : CalculatedSplit) (t : SplitInput), res[k]? = some s →
        ([⟨"P1", some 60⟩, ⟨"P2", some 40⟩] : List SplitInput)[k]? = some t → 0 < k →
        s.share = percentageFlooredShare ((1000 : ℤ) : ℚ) t) ∧
      (∀ (s : CalculatedSplit) (t : SplitInput), res[0]? = some s →
        ([⟨"P1", some 60⟩, ⟨"P2", some 40⟩] : List SplitInput)[0]? = some t →
        s.share = percentageFlooredShare ((1000 : ℤ) : ℚ) t
          + (if 0 < percentageDiff ((1000 : ℤ) : ℚ) [⟨"P1", some 60⟩, ⟨"P2", some 40⟩]
              then percentageDiff ((1000 : ℤ) : ℚ) [⟨"P1", some 60⟩, ⟨"P2", some 40⟩]
              else 0)) :=
  C1_percentage_split_amended 1000 (by norm_num) [⟨"P1", some 60⟩, ⟨"P2", some 40⟩]
    (by simp)
    (by
      intro s hs
      rcases List.mem_cons.mp hs with rfl | hs
      · exact ⟨60, rfl, by norm_num, by norm_num⟩
      · rcases List.mem_cons.mp hs with rfl | hs
        · exact ⟨40, rfl, by norm_num, by norm_num⟩
        · simp at hs)
    (by norm_num [List.foldl, abs_le])
    (by norm_num [List.foldl])

/-- `netBalances.get(id)` restricted to the balance field: the net balance
the map assigns to participant `id`, if any. -/
def balanceOf (m : List NetBalance) (id : String) : Option ℚ :=
  (m.find? (fun b => b.userId == id)).map (·.balance)

/-- The signed contribution of one obligation to participant `id`'s net
balance: credited as creditor, debited as debtor. -/
def obDelta (ob : Obligation) (id : String) : ℚ :=
  (if ob.toUser.userId = id then ob.amount else 0)
    - (if ob.fromUser.userId = id then ob.amount else 0)

/-- The total signed contribution of a list of obligations to `id`. -/
def netDelta (obs : List Obligation) (id : String) : ℚ :=
  (obs.map (fun ob => obDelta ob id)).sum

/-- Whether an obligation mentions participant `id` at either end. -/
def obTouches (ob : Obligation) (id : String) : Bool :=
  ob.fromUser.userId == id || ob.toUser.userId == id

theorem balanceOf_cons_of_eq (x : NetBalance) (xs : List NetBalance) (id : String)
    (h : x.userId = id) : balanceOf (x :: xs) id = some x.balance := by
  rw [balanceOf, List.find?_cons_of_pos _ (by simp [h])]
  rfl

theorem balanceOf_cons_of_ne (x : NetBalance) (xs : List NetBalance) (id : String)
    (h : ¬ x.userId = id) : balanceOf (x :: xs) id = balanceOf xs id := by
  rw [balanceOf, List.find?_cons_of_neg _ (by simp [h]), balanceOf]

theorem balanceOf_addBalance (m : List NetBalance) (i id : String) (d : ℚ) :
    balanceOf (addBalance m i d) id =
      if id = i then (balanceOf m id).map (· + d) else balanceOf m id := by
  induction m with
  | nil =>
    simp only [balanceOf, addBalance, List.map_nil, List.find?_nil, Option.map_none']
    split <;> rfl
  | cons x xs ih =>
    by_cases hxi : x.userId = i <;> by_cases hxid : x.userId = id
    · have hid : id = i := by rw [← hxid, hxi]
      subst hid
      rw [balanceOf, addBalance, List.map_cons, if_pos (by simp [hxi]),
        List.find?_cons_of_pos _ (by simp [hxid]), if_pos rfl,
        balanceOf, List.find?_cons_of_pos _ (by simp [hxid])]
      simp
    · have hid : ¬ id = i := fun h => hxid (h ▸ hxi)
      rw [balanceOf, addBalance, List.map_cons, if_pos (by simp [hxi]),
        List.find?_cons_of_neg _ (by simp [hxid]), if_neg hid,
        balanceOf, List.find?_cons_of_neg _ (by simp [hxid])]
      have := ih
      rw [if_neg hid] at this
      rw [balanceOf, addBalance] at this
      exact this
    · have hid : ¬ id = i := fun h => hxi (h ▸ hxid)
      rw [balanceOf, addBalance, List.map_cons, if_neg (by simp [hxi]),
        List.find?_cons_of_pos _ (by simp [hxid]), if_neg hid,
        balanceOf, List.find?_cons_of_pos _ (by simp [hxid])]
    · rw [balanceOf, addBalance, List.map_cons, if_neg (by simp [hxi]),
        List.find?_cons_of_neg _ (by simp [hxid])]
      have := ih
      rw [balanceOf, addBalance] at this
      rw [this, balanceOf_cons_of_ne x xs id hxid]

theorem balanceOf_setIfAbsent (m : List NetBalance) (i n id : String) :
    balanceOf (setIfAbsent m i n) id =
      if id = i then some ((balanceOf m i).getD 0) else balanceOf m id := by
  rw [setIfAbsent]
  cases hany : m.any (fun b => b.userId == i) with
  | true =>
    rw [if_pos rfl]
    by_cases hid : id = i
    · subst hid
      rw [if_pos rfl]
      have hsome : (m.find? (fun b => b.userId == id)).isSome := by
        rw [List.find?_isSome]
        obtain ⟨b, hb, hbi⟩ := List.any_eq_true.mp hany
        exact ⟨b, hb, hbi⟩
      cases hf : m.find? (fun b => b.userId == id) with
      | none => rw [hf] at hsome; simp at hsome
      | some c => simp [balanceOf, hf]
    · rw [if_neg hid]
  | false =>
    rw [if_neg (by simp)]
    have hnone : m.find? (fun b => b.userId == i) = none := by
      rw [List.find?_eq_none]
      intro b hb
      have := List.any_eq_false.mp hany b hb
      simpa using this
    by_cases hid : id = i
    · subst hid
      rw [if_pos rfl, balanceOf, List.find?_append, hnone, Option.none_or,
        List.find?_cons_of_pos _ (by simp), balanceOf, hnone]
      simp
    · have hsingle : List.find? (fun b => b.userId == id)
          [({ userId := i, userName := n, balance := 0 } : NetBalance)] = none := by
        rw [List.find?_eq_none]
        intro b hb
        have hbeq : b = ({ userId := i, userName := n, balance := 0 } : NetBalance) := by
          simpa using hb
        subst hbeq
        simpa using fun h => hid h.symm
      rw [if_neg hid, balanceOf, List.find?_append, hsingle, Option.or_none, balanceOf]

theorem balanceOf_applyObligation (m : List NetBalance) (ob : Obligation) (id : String) :
    balanceOf (applyObligation m ob) id =
      if obTouches ob id then some ((balanceOf m id).getD 0 + obDelta ob id)
      else balanceOf m id := by
  rw [applyObligation]
  rw [balanceOf_addBalance, balanceOf_setIfAbsent]
  by_cases hto : id = ob.toUser.userId <;> by_cases hfrom : id = ob.fromUser.userId
  · have ht : obTouches ob id = true := by simp [obTouches, hfrom.symm]
    rw [if_pos hto, if_pos hto, if_pos ht]
    rw [← hto, balanceOf_addBalance, if_pos hfrom, balanceOf_setIfAbsent, if_pos hfrom,
      ← hfrom, obDelta, if_pos hto.symm, if_pos hfrom.symm]
    cases hb : balanceOf m id <;> simp [hb]
  · have ht : obTouches ob id = true := by simp [obTouches, hto.symm]
    rw [if_pos hto, if_pos hto, if_pos ht]
    rw [← hto, balanceOf_addBalance, if_neg hfrom, balanceOf_setIfAbsent, if_neg hfrom,
      obDelta, if_pos hto.symm, if_neg (fun h => hfrom h.symm)]
    cases hb : balanceOf m id <;> simp [hb]
  · have ht : obTouches ob id = true := by simp [obTouches, hfrom.symm]
    rw [if_neg hto, if_neg hto, if_pos ht]
    rw [balanceOf_addBalance, if_pos hfrom, balanceOf_setIfAbsent, if_pos hfrom,
      ← hfrom, obDelta, if_neg (fun h => hto h.symm), if_pos hfrom.symm]
    cases hb : balanceOf m id <;> simp [hb]
  · have ht : obTouches ob id = false := by
      rw [obTouches, Bool.or_eq_false_iff]
      constructor
      · simp
        exact fun h => hfrom h.symm
      · simp
        exact fun h => hto h.symm
    rw [if_neg hto, if_neg hto, if_neg (by simp [ht])]
    rw [balanceOf_addBalance, if_neg hfrom, balanceOf_setIfAbsent, if_neg hfrom]

theorem balanceOf_foldl (obs : List Obligation) (m : List NetBalance) (id : String) :
    balanceOf (obs.foldl applyObligation m) id =
      match balanceOf m id with
      | some b => some (b + netDelta obs id)
      | none =>
        if obs.any (fun ob => obTouches ob id) then some (netDelta obs id) else none := by
  induction obs generalizing m with
  | nil =>
    cases hb : balanceOf m id <;> simp [netDelta, hb]
  | cons ob rest ih =>
    rw [List.foldl_cons, ih]
    rw [balanceOf_applyObligation]
    have hnd : netDelta (ob :: rest) id = obDelta ob id + netDelta rest id := by
      simp [netDelta]
    cases ht : obTouches ob id with
    | true =>
      rw [if_pos rfl]
      cases hb : balanceOf m id with
      | none =>
        simp only [Option.getD_none, hnd, List.any_cons, ht, Bool.true_or, if_pos]
        rw [zero_add]
      | some b =>
        simp only [Option.getD_some, hnd]
        congr 1
        ring
    | false =>
      rw [if_neg (by simp)]
      have hob0 : obDelta ob id = 0 := by
        rw [obTouches, Bool.or_eq_false_iff] at ht
        have h1 : ¬ ob.toUser.userId = id := by simpa using ht.2
        have h2 : ¬ ob.fromUser.userId = id := by simpa using ht.1
        rw [obDelta, if_neg h1, if_neg h2, sub_zero]
      cases hb : balanceOf m id with
      | none =>
        simp only [List.any_cons, ht, Bool.false_or, hnd, hob0, zero_add]
      | some b =>
        simp only [hnd, hob0, zero_add]

/-- **C5.** `calculateNetBalances` is order-independent: for every obligation
list and every permutation of it, the resulting map assigns every participant
identifier the same net balance (credited as creditor, debited as debtor). -/
theorem C5_net_balances_order_independent (obs₁ obs₂ : List Obligation)
    (h : obs₁.Perm obs₂) (id : String) :
    balanceOf (calculateNetBalances obs₁) id = balanceOf (calculateNetBalances obs₂) id := by
  rw [calculateNetBalances, calculateNetBalances, balanceOf_foldl, balanceOf_foldl]
  have hnone : balanceOf [] id = none := rfl
  rw [hnone]
  have hdelta : netDelta obs₁ id = netDelta obs₂ id :=
    (h.map (fun ob => obDelta ob id)).sum_eq
  have hany : obs₁.any (fun ob => obTouches ob id) = obs₂.any (fun ob => obTouches ob id) := by
    rw [Bool.eq_iff_iff, List.any_eq_true, List.any_eq_true]
    constructor
    · rintro ⟨ob, hob, hob2⟩
      exact ⟨ob, h.mem_iff.mp hob, hob2⟩
    · rintro ⟨ob, hob, hob2⟩
      exact ⟨ob, h.mem_iff.mpr hob, hob2⟩
  rw [hdelta, hany]

/-- **C5 witness**: swapping two concrete obligations leaves `"A"`'s (and
every other) balance unchanged. -/
theorem C5_net_balances_order_independent_witness :
    balanceOf (calculateNetBalances
      [⟨⟨"A", "Alice"⟩, ⟨"B", "Bob"⟩, 100⟩, ⟨⟨"B", "Bob"⟩, ⟨"C", "Cara"⟩, 50⟩]) "A"
      = balanceOf (calculateNetBalances
        [⟨⟨"B", "Bob"⟩, ⟨"C", "Cara"⟩, 50⟩, ⟨⟨"A", "Alice"⟩, ⟨"B", "Bob"⟩, 100⟩]) "A" :=
  C5_net_balances_order_independent _ _ (List.Perm.swap _ _ _) "A"

theorem greedyLoop_length_le (cl dl : List NetBalance) :
    (greedyLoop cl dl).length ≤ cl.length + dl.length := by
  induction cl, dl using greedyLoop.induct with
  | case1 dl => simp [greedyLoop]
  | case2 c cs => simp [greedyLoop]
  | case3 c cs d ds amt newC newD ih =>
    unfold_let amt newC newD at ih
    simp only [dite_eq_ite] at ih
    rw [greedyLoop, List.length_append]
    rcases min_cases c.balance |d.balance| with ⟨hmin, _⟩ | ⟨hmin, _⟩
    · have hc : c.balance - min c.balance |d.balance| < 1/100 := by rw [hmin]; norm_num
      rw [if_pos hc] at ih ⊢
      by_cases hd2 : -(1/100) < d.balance + min c.balance |d.balance|
      · rw [if_pos hd2] at ih ⊢
        split <;> simp only [List.length_cons, List.length_nil] at ih ⊢ <;> omega
      · rw [if_neg hd2] at ih ⊢
        split <;> simp only [List.length_cons, List.length_nil] at ih ⊢ <;> omega
    · have hd2 : -(1/100) < d.balance + min c.balance |d.balance| := by
        rw [hmin]
        have h0 : (0:ℚ) ≤ d.balance + |d.balance| := by
          rcases abs_cases d.balance with ⟨h, _⟩ | ⟨h, _⟩ <;> linarith
        linarith
      rw [if_pos hd2] at ih ⊢
      by_cases hc2 : c.balance - min c.balance |d.balance| < 1/100
      · rw [if_pos hc2] at ih ⊢
        split <;> simp only [List.length_cons, List.length_nil] at ih ⊢ <;> omega
      · rw [if_neg hc2] at ih ⊢
        split <;> simp only [List.length_cons, List.length_nil] at ih ⊢ <;> omega

/-- **C10.** The greedy settlement loop terminates on every finite
net-balance map (`simplifySettlements` is a total function by well-founded
recursion on the summed cursor distance), and it emits at most one
settlement per iteration, so the output has at most
(number of creditors + number of debtors) settlements. -/
theorem C10_simplify_terminates_with_bound (netBalances : List NetBalance) :
    (simplifySettlements netBalances).length ≤
      (netBalances.filter (fun b => decide (1/100 < b.balance))).length
        + (netBalances.filter (fun b => decide (b.balance < -(1/100)))).length := by
  rw [simplifySettlements]
  have h := greedyLoop_length_le
    (List.insertionSort (fun a b => b.balance ≤ a.balance)
      (netBalances.filter (fun b => decide (1/100 < b.balance))))
    (List.insertionSort (fun a b => a.balance ≤ b.balance)
      (netBalances.filter (fun b => decide (b.balance < -(1/100)))))
  calc _ ≤ _ := h
    _ = _ := by
      rw [(List.perm_insertionSort _ _).length_eq, (List.perm_insertionSort _ _).length_eq]

theorem greedyLoop_no_self_pay (cl dl : List NetBalance) :
    (∀ c ∈ cl, ∀ d ∈ dl, c.userId ≠ d.userId) →
    ∀ s ∈ greedyLoop cl dl, s.fromUser.userId ≠ s.toUser.userId := by
  induction cl, dl using greedyLoop.induct with
  | case1 dl => intro _ s hs; simp [greedyLoop] at hs
  | case2 c cs => intro _ s hs; simp [greedyLoop] at hs
  | case3 c cs d ds amt newC newD ih =>
    unfold_let amt newC newD at ih
    simp only [dite_eq_ite] at ih
    intro hsep s hs
    rw [greedyLoop, List.mem_append] at hs
    rcases hs with hs | hs
    · have hcd := hsep c (List.mem_cons_self c cs) d (List.mem_cons_self d ds)
      split at hs
      · rcases List.mem_singleton.mp hs with rfl
        simpa using fun h => hcd h.symm
      · simp at hs
    · refine ih ?_ s hs
      intro c' hc' d' hd'
      have hcmem : c'.userId = c.userId ∨ c' ∈ cs := by
        split at hc'
        · exact Or.inr hc'
        · rcases List.mem_cons.mp hc' with rfl | hmem
          · exact Or.inl rfl
          · exact Or.inr hmem
      have hdmem : d'.userId = d.userId ∨ d' ∈ ds := by
        split at hd'
        · exact Or.inr hd'
        · rcases List.mem_cons.mp hd' with rfl | hmem
          · exact Or.inl rfl
          · exact Or.inr hmem
      rcases hcmem with hcu | hcm <;> rcases hdmem with hdu | hdm
      · rw [hcu, hdu]
        exact hsep c (List.mem_cons_self c cs) d (List.mem_cons_self d ds)
      · rw [hcu]
        exact hsep c (List.mem_cons_self c cs) d' (List.mem_cons_of_mem d hdm)
      · rw [hdu]
        exact hsep c' (List.mem_cons_of_mem c hcm) d (List.mem_cons_self d ds)
      · exact hsep c' (List.mem_cons_of_mem c hcm) d' (List.mem_cons_of_mem d hdm)

/-- **C8.** On any net-balance map (whose entries carry pairwise-distinct
user identifiers, as every JS map keyed by the id guarantees), every
settlement emitted by `simplifySettlements` has `from.userId ≠ to.userId`:
the payer is drawn from the debtors, the payee from the creditors, and no
entry is in both partitions. -/
theorem C8_no_self_settlement (netBalances : List NetBalance)
    (hnodup : (netBalances.map (·.userId)).Nodup) :
    ∀ s ∈ simplifySettlements netBalances, s.fromUser.userId ≠ s.toUser.userId := by
  rw [simplifySettlements]
  apply greedyLoop_no_self_pay
  intro c hc d hd
  have hc1 : c ∈ netBalances.filter (fun b => decide (1/100 < b.balance)) :=
    (List.perm_insertionSort _ _).mem_iff.mp hc
  have hd1 : d ∈ netBalances.filter (fun b => decide (b.balance < -(1/100))) :=
    (List.perm_insertionSort _ _).mem_iff.mp hd
  obtain ⟨hc2, hc3⟩ := List.mem_filter.mp hc1
  obtain ⟨hd2, hd3⟩ := List.mem_filter.mp hd1
  have hcb : 1/100 < c.balance := by simpa using hc3
  have hdb : d.balance < -(1/100) := by simpa using hd3
  intro heq
  have hcd : c = d := List.inj_on_of_nodup_map hnodup hc2 hd2 heq
  rw [hcd] at hcb
  linarith

/-- **C8 witness**: on a concrete two-party map the emitted settlement
`B pays A 100` has distinct payer and payee. -/
theorem C8_no_self_settlement_witness :
    ({ fromUser := ⟨"B", "Bob"⟩, toUser := ⟨"A", "Alice"⟩, amount := 100 } :
        OptimizedSettlement).fromUser.userId
      ≠ ({ fromUser := ⟨"B", "Bob"⟩, toUser := ⟨"A", "Alice"⟩, amount := 100 } :
        OptimizedSettlement).toUser.userId :=
  C8_no_self_settlement [⟨"A", "Alice", 100⟩, ⟨"B", "Bob", -100⟩] (by simp)
    { fromUser := ⟨"B", "Bob"⟩, toUser := ⟨"A", "Alice"⟩, amount := 100 }
    (by
      have hs : simplifySettlements [⟨"A", "Alice", 100⟩, ⟨"B", "Bob", -100⟩]
          = [{ fromUser := ⟨"B", "Bob"⟩, toUser := ⟨"A", "Alice"⟩, amount := 100 }] := by
        simp +decide [simplifySettlements, List.filter, List.insertionSort,
          List.orderedInsert]
        rw [greedyLoop.eq_def]
        norm_num [min_def, abs_of_nonpos, jsRound]
        simp [greedyLoop]
      rw [hs]
      simp)

theorem jsRound_intCast (z : ℤ) : jsRound ((z : ℤ) : ℚ) = z := by
  rw [jsRound, Int.floor_eq_iff]
  constructor
  · linarith
  · linarith

theorem hundredth_lt_intCast (x : ℤ) : ((1:ℚ)/100 < (x:ℚ)) ↔ 1 ≤ x := by
  constructor
  · intro h
    by_contra hx
    push_neg at hx
    have hx' : x ≤ 0 := by omega
    have : (x:ℚ) ≤ 0 := by exact_mod_cast hx'
    linarith
  · intro h
    have : (1:ℚ) ≤ (x:ℚ) := by exact_mod_cast h
    linarith

theorem intCast_lt_neg_hundredth (x : ℤ) : ((x:ℚ) < -((1:ℚ)/100)) ↔ x ≤ -1 := by
  constructor
  · intro h
    by_contra hx
    push_neg at hx
    have hx' : 0 ≤ x := by omega
    have : (0:ℚ) ≤ (x:ℚ) := by exact_mod_cast hx'
    linarith
  · intro h
    have : (x:ℚ) ≤ -1 := by exact_mod_cast h
    linarith

theorem intCast_lt_hundredth (x : ℤ) : ((x:ℚ) < (1:ℚ)/100) ↔ x ≤ 0 := by
  constructor
  · intro h
    by_contra hx
    push_neg at hx
    have : (1:ℚ) ≤ (x:ℚ) := by exact_mod_cast hx
    linarith
  · intro h
    have : (x:ℚ) ≤ 0 := by exact_mod_cast h
    linarith

theorem neg_hundredth_lt_intCast (x : ℤ) : (-((1:ℚ)/100) < (x:ℚ)) ↔ 0 ≤ x := by
  constructor
  · intro h
    by_contra hx
    push_neg at hx
    have hx' : x ≤ -1 := by omega
    have : (x:ℚ) ≤ -1 := by exact_mod_cast hx'
    linarith
  · intro h
    have : (0:ℚ) ≤ (x:ℚ) := by exact_mod_cast h
    linarith

theorem greedyLoop_sum (cl dl : List NetBalance) :
    (∀ c ∈ cl, ∃ z : ℤ, c.balance = (z:ℚ) ∧ 1 ≤ z) →
    (∀ d ∈ dl, ∃ z : ℤ, d.balance = (z:ℚ) ∧ z ≤ -1) →
    ((cl.map (·.balance)).sum = -((dl.map (·.balance)).sum)) →
    ((greedyLoop cl dl).map (·.amount)).sum = (cl.map (·.balance)).sum := by
  induction cl, dl using greedyLoop.induct with
  | case1 dl =>
    intro _ _ hbal
    simp [greedyLoop]
  | case2 c cs =>
    intro _ _ hbal
    simp only [List.map_nil, List.sum_nil, neg_zero] at hbal
    simp only [greedyLoop, List.map_nil, List.sum_nil]
    exact hbal.symm
  | case3 c cs d ds amt newC newD ih =>
    unfold_let amt newC newD at ih
    simp only [dite_eq_ite] at ih
    intro hc hd hbal
    obtain ⟨zc, hzc, hzc1⟩ := hc c (List.mem_cons_self c cs)
    obtain ⟨zd, hzd, hzd1⟩ := hd d (List.mem_cons_self d ds)
    have hdneg : d.balance < 0 := by
      rw [hzd]
      exact_mod_cast (by omega : zd < 0)
    have habs : |d.balance| = -d.balance := abs_of_neg hdneg
    have hza : min c.balance |d.balance| = ((min zc (-zd) : ℤ) : ℚ) := by
      rw [habs, hzc, hzd]
      push_cast
      rfl
    have hza1 : 1 ≤ min zc (-zd) := by omega
    have hgt : (1:ℚ)/100 < min c.balance |d.balance| := by
      rw [hza]
      exact (hundredth_lt_intCast _).mpr hza1
    have hcsub : c.balance - min c.balance |d.balance| = ((zc - min zc (-zd) : ℤ) : ℚ) := by
      rw [hza, hzc]
      push_cast
      ring
    have hdadd : d.balance + min c.balance |d.balance| = ((zd + min zc (-zd) : ℤ) : ℚ) := by
      rw [hza, hzd]
      push_cast
      ring
    rw [greedyLoop, if_pos hgt]
    simp only [List.map_append, List.sum_append, List.map_cons, List.sum_cons,
      List.map_nil, List.sum_nil]
    have hamt_eval : ((jsRound (min c.balance |d.balance|) : ℤ) : ℚ)
        = ((min zc (-zd) : ℤ) : ℚ) := by
      rw [hza, jsRound_intCast]
    rw [hamt_eval]
    have hsumc : (List.map (fun x => x.balance) (c :: cs)).sum
        = c.balance + (List.map (fun x => x.balance) cs).sum := by
      simp
    have hsumd : (List.map (fun x => x.balance) (d :: ds)).sum
        = d.balance + (List.map (fun x => x.balance) ds).sum := by
      simp
    rw [hsumc, hsumd] at hbal
    by_cases hcond1 : c.balance - min c.balance |d.balance| < 1/100 <;>
      by_cases hcond2 : -(1/100) < d.balance + min c.balance |d.balance|
    · -- both cursors advance: amount = c.balance = -d.balance
      rw [if_pos hcond1, if_pos hcond2] at ih ⊢
      have hzc_eq : zc = min zc (-zd) := by
        rw [hcsub] at hcond1
        have := (intCast_lt_hundredth _).mp hcond1
        omega
      have hzd_eq : zd + min zc (-zd) = 0 := by
        rw [hdadd] at hcond2
        have := (neg_hundredth_lt_intCast _).mp hcond2
        omega
      have hrec := ih (fun x hx => hc x (List.mem_cons_of_mem c hx))
        (fun x hx => hd x (List.mem_cons_of_mem d hx))
        (by
          have hc_amt : c.balance = ((min zc (-zd) : ℤ) : ℚ) := by
            rw [hzc]
            exact_mod_cast congrArg (fun z : ℤ => (z:ℚ)) hzc_eq
          have hd_amt : d.balance = -((min zc (-zd) : ℤ) : ℚ) := by
            rw [hzd]
            have : (zd : ℚ) + ((min zc (-zd) : ℤ) : ℚ) = 0 := by
              exact_mod_cast congrArg (fun z : ℤ => (z:ℚ)) hzd_eq
            linarith
          linarith [hbal])
      rw [hrec]
      have hc_amt : c.balance = ((min zc (-zd) : ℤ) : ℚ) := by
        rw [hzc]
        exact_mod_cast congrArg (fun z : ℤ => (z:ℚ)) hzc_eq
      linarith
    · -- creditor settled, debtor keeps a residue
      rw [if_pos hcond1, if_neg hcond2] at ih ⊢
      have hzc_eq : zc = min zc (-zd) := by
        rw [hcsub] at hcond1
        have := (intCast_lt_hundredth _).mp hcond1
        omega
      have hzd_res : zd + min zc (-zd) ≤ -1 := by
        rw [hdadd] at hcond2
        push_neg at hcond2
        have hub : ((zd + min zc (-zd) : ℤ) : ℚ) ≤ -(1/100) := hcond2
        by_contra hx
        push_neg at hx
        have hx' : 0 ≤ zd + min zc (-zd) := by omega
        have hlb : (0:ℚ) ≤ ((zd + min zc (-zd) : ℤ) : ℚ) := by exact_mod_cast hx'
        linarith
      have hc_amt : c.balance = ((min zc (-zd) : ℤ) : ℚ) := by
        rw [hzc]
        exact_mod_cast congrArg (fun z : ℤ => (z:ℚ)) hzc_eq
      have hrec := ih (fun x hx => hc x (List.mem_cons_of_mem c hx))
        (by
          intro x hx
          rcases List.mem_cons.mp hx with rfl | hmem
          · exact ⟨zd + min zc (-zd), by simpa using hdadd, hzd_res⟩
          · exact hd x (List.mem_cons_of_mem d hmem))
        (by
          simp only [List.map_cons, List.sum_cons]
          rw [hdadd, Int.cast_add]
          rw [hzd] at hbal
          linarith)
      rw [hrec, hc_amt]
      ring
    · -- debtor settled, creditor keeps a residue
      rw [if_neg hcond1, if_pos hcond2] at ih ⊢
      have hzd_eq : zd + min zc (-zd) = 0 := by
        rw [hdadd] at hcond2
        have := (neg_hundredth_lt_intCast _).mp hcond2
        omega
      have hzc_res : 1 ≤ zc - min zc (-zd) := by
        rw [hcsub] at hcond1
        push_neg at hcond1
        have hlb : ((1:ℚ))/100 ≤ ((zc - min zc (-zd) : ℤ) : ℚ) := hcond1
        by_contra hx
        push_neg at hx
        have hx' : zc - min zc (-zd) ≤ 0 := by omega
        have hub : ((zc - min zc (-zd) : ℤ) : ℚ) ≤ 0 := by exact_mod_cast hx'
        linarith
      have hd_amt : d.balance = -((min zc (-zd) : ℤ) : ℚ) := by
        rw [hzd]
        have : (zd : ℚ) + ((min zc (-zd) : ℤ) : ℚ) = 0 := by
          exact_mod_cast congrArg (fun z : ℤ => (z:ℚ)) hzd_eq
        linarith
      have hrec := ih
        (by
          intro x hx
          rcases List.mem_cons.mp hx with rfl | hmem
          · exact ⟨zc - min zc (-zd), by simpa using hcsub, hzc_res⟩
          · exact hc x (List.mem_cons_of_mem c hmem))
        (fun x hx => hd x (List.mem_cons_of_mem d hx))
        (by
          simp only [List.map_cons, List.sum_cons]
          rw [hcsub, Int.cast_sub]
          rw [hzd] at hbal
          linarith [hzc, hd_amt])
      rw [hrec]
      simp only [List.map_cons, List.sum_cons]
      rw [hcsub, Int.cast_sub, hzc]
      ring
    · -- impossible: the settled amount zeroes at least one side
      exfalso
      rw [hcsub] at hcond1
      rw [hdadd] at hcond2
      push_neg at hcond1 hcond2
      have h1 : ¬ (zc - min zc (-zd) ≤ 0) := by
        intro h
        have hcast : ((zc - min zc (-zd) : ℤ) : ℚ) ≤ 0 := by exact_mod_cast h
        linarith
      have h2 : ¬ (0 ≤ zd + min zc (-zd)) := by
        intro h
        have : (0:ℚ) ≤ ((zd + min zc (-zd) : ℤ) : ℚ) := by exact_mod_cast h
        have hq : -((1:ℚ)/100) < ((zd + min zc (-zd) : ℤ) : ℚ) := by linarith
        exact absurd hq (not_lt.mpr hcond2)
      rcases le_total zc (-zd) with hm | hm
      · rw [min_eq_left hm] at h1 h2
        omega
      · rw [min_eq_right hm] at h1 h2
        omega

theorem filter_sum_split (m : List NetBalance)
    (hint : ∀ b ∈ m, ∃ z : ℤ, b.balance = (z:ℚ)) :
    ((m.filter (fun b => decide (1/100 < b.balance))).map (·.balance)).sum
      + ((m.filter (fun b => decide (b.balance < -(1/100)))).map (·.balance)).sum
      = (m.map (·.balance)).sum := by
  induction m with
  | nil => simp
  | cons b bs ih =>
    have ih' := ih (fun x hx => hint x (List.mem_cons_of_mem b hx))
    obtain ⟨z, hz⟩ := hint b (List.mem_cons_self b bs)
    rcases le_or_lt z 0 with hz0 | hz0
    · rcases le_or_lt z (-1) with hz1 | hz1
      · -- a debtor entry
        have hpos : (decide ((1:ℚ)/100 < b.balance)) = false := by
          simp only [decide_eq_false_iff_not]
          rw [hz]
          intro h
          have := (hundredth_lt_intCast z).mp h
          omega
        have hneg : (decide (b.balance < -((1:ℚ)/100))) = true := by
          simp only [decide_eq_true_eq]
          rw [hz]
          exact (intCast_lt_neg_hundredth z).mpr hz1
        simp only [List.filter_cons, hpos, hneg, if_false, if_true, Bool.false_eq_true,
          List.map_cons, List.sum_cons]
        linarith
      · -- a zero entry
        have hzz : z = 0 := by omega
        subst hzz
        have hpos : (decide ((1:ℚ)/100 < b.balance)) = false := by
          simp only [decide_eq_false_iff_not]
          rw [hz]
          norm_num
        have hneg : (decide (b.balance < -((1:ℚ)/100))) = false := by
          simp only [decide_eq_false_iff_not]
          rw [hz]
          norm_num
        simp only [List.filter_cons, hpos, hneg, Bool.false_eq_true, if_false,
          List.map_cons, List.sum_cons]
        rw [hz]
        push_cast
        linarith
    · -- a creditor entry
      have hpos : (decide ((1:ℚ)/100 < b.balance)) = true := by
        simp only [decide_eq_true_eq]
        rw [hz]
        exact (hundredth_lt_intCast z).mpr (by omega)
      have hneg : (decide (b.balance < -((1:ℚ)/100))) = false := by
        simp only [decide_eq_false_iff_not]
        rw [hz]
        intro h
        have := (intCast_lt_neg_hundredth z).mp h
        omega
      simp only [List.filter_cons, hpos, hneg, Bool.false_eq_true, if_false, if_true,
        List.map_cons, List.sum_cons]
      linarith

theorem filter_pos_sum_eq_max_sum (m : List NetBalance)
    (hint : ∀ b ∈ m, ∃ z : ℤ, b.balance = (z:ℚ)) :
    ((m.filter (fun b => decide (1/100 < b.balance))).map (·.balance)).sum
      = (m.map (fun b => max b.balance 0)).sum := by
  induction m with
  | nil => simp
  | cons b bs ih =>
    have ih' := ih (fun x hx => hint x (List.mem_cons_of_mem b hx))
    obtain ⟨z, hz⟩ := hint b (List.mem_cons_self b bs)
    rcases le_or_lt z 0 with hz0 | hz0
    · have hpos : (decide ((1:ℚ)/100 < b.balance)) = false := by
        simp only [decide_eq_false_iff_not]
        rw [hz]
        intro h
        have := (hundredth_lt_intCast z).mp h
        omega
      have hmax : max b.balance 0 = 0 := by
        rw [max_eq_right]
        rw [hz]
        exact_mod_cast hz0
      simp only [List.filter_cons, hpos, Bool.false_eq_true, if_false,
        List.map_cons, List.sum_cons, hmax]
      linarith
    · have hpos : (decide ((1:ℚ)/100 < b.balance)) = true := by
        simp only [decide_eq_true_eq]
        rw [hz]
        exact (hundredth_lt_intCast z).mpr (by omega)
      have hmax : max b.balance 0 = b.balance := by
        rw [max_eq_left]
        rw [hz]
        have : (1:ℤ) ≤ z := by omega
        have h1 : (1:ℚ) ≤ (z:ℚ) := by exact_mod_cast this
        linarith
      simp only [List.filter_cons, hpos, if_true, List.map_cons, List.sum_cons, hmax]
      linarith

theorem simplify_zero_map (m : List NetBalance) (hz : ∀ b ∈ m, b.balance = 0) :
    simplifySettlements m = [] := by
  rw [simplifySettlements]
  have h1 : m.filter (fun b => decide (1/100 < b.balance)) = [] := by
    rw [List.filter_eq_nil_iff]
    intro b hb
    simp [hz b hb]
  rw [h1]
  simp [List.insertionSort, greedyLoop]

/-- **C2 (amended).** For every net-balance map whose balances are integers
(as the data model prescribes) and sum to zero (as any map produced from
obligations does), the total settled by `simplifySettlements` equals the
total positive net balance; and on an all-zero map the result is empty. -/
theorem C2_simplify_conservation_amended (netBalances : List NetBalance)
    (hint : ∀ b ∈ netBalances, ∃ z : ℤ, b.balance = (z:ℚ))
    (hbal : (netBalances.map (·.balance)).sum = 0) :
    ((simplifySettlements netBalances).map (·.amount)).sum
        = (netBalances.map (fun b => max b.balance 0)).sum
      ∧ ((∀ b ∈ netBalances, b.balance = 0) → simplifySettlements netBalances = []) := by
  refine ⟨?_, simplify_zero_map netBalances⟩
  rw [simplifySettlements]
  have hclperm := List.perm_insertionSort (fun a b => b.balance ≤ a.balance)
    (netBalances.filter (fun b => decide (1/100 < b.balance)))
  have hdlperm := List.perm_insertionSort (fun a b => a.balance ≤ b.balance)
    (netBalances.filter (fun b => decide (b.balance < -(1/100))))
  have hclsum := (hclperm.map (fun b : NetBalance => b.balance)).sum_eq
  have hdlsum := (hdlperm.map (fun b : NetBalance => b.balance)).sum_eq
  have hsplit := filter_sum_split netBalances hint
  rw [hbal] at hsplit
  have hc : ∀ c ∈ List.insertionSort (fun a b => b.balance ≤ a.balance)
      (netBalances.filter (fun b => decide (1/100 < b.balance))),
      ∃ z : ℤ, c.balance = (z:ℚ) ∧ 1 ≤ z := by
    intro c hcmem
    have h1 := hclperm.mem_iff.mp hcmem
    obtain ⟨h2, h3⟩ := List.mem_filter.mp h1
    obtain ⟨z, hz⟩ := hint c h2
    refine ⟨z, hz, ?_⟩
    have hb : (1:ℚ)/100 < c.balance := by simpa using h3
    rw [hz] at hb
    exact (hundredth_lt_intCast z).mp hb
  have hd : ∀ d ∈ List.insertionSort (fun a b => a.balance ≤ b.balance)
      (netBalances.filter (fun b => decide (b.balance < -(1/100)))),
      ∃ z : ℤ, d.balance = (z:ℚ) ∧ z ≤ -1 := by
    intro d hdmem
    have h1 := hdlperm.mem_iff.mp hdmem
    obtain ⟨h2, h3⟩ := List.mem_filter.mp h1
    obtain ⟨z, hz⟩ := hint d h2
    refine ⟨z, hz, ?_⟩
    have hb : d.balance < -((1:ℚ)/100) := by simpa using h3
    rw [hz] at hb
    exact (intCast_lt_neg_hundredth z).mp hb
  have hbal' := greedyLoop_sum _ _ hc hd (by rw [hclsum, hdlsum]; linarith)
  rw [hbal', hclsum]
  exact filter_pos_sum_eq_max_sum netBalances hint

/-- **C2 counterexample.** The claim as stated quantifies over *every*
net-balance map, but on the unbalanced map `{A: +100}` there are no debtors,
the greedy loop exits immediately, and the settled total `0` differs from
the positive-balance total `100`. -/
theorem C2_simplify_conservation_counterexample :
    simplifySettlements [⟨"A", "Alice", (100:ℚ)⟩] = []
      ∧ (([⟨"A", "Alice", (100:ℚ)⟩] : List NetBalance).map (fun b => max b.balance 0)).sum = 100
      ∧ (([] : List OptimizedSettlement).map (·.amount)).sum = 0
      ∧ (0:ℚ) ≠ 100 := by
  refine ⟨?_, ?_, by simp, by norm_num⟩
  · rw [simplifySettlements]
    norm_num [List.filter, List.insertionSort, List.orderedInsert, greedyLoop]
  · simp only [List.map_cons, List.map_nil, List.sum_cons, List.sum_nil]
    norm_num [max_eq_left]

/-- **C2 witness** for the amended theorem on a balanced two-party map. -/
theorem C2_simplify_conservation_amended_witness :
    ((simplifySettlements [⟨"A", "Alice", (100:ℚ)⟩, ⟨"B", "Bob", (-100:ℚ)⟩]).map
        (·.amount)).sum
        = (([⟨"A", "Alice", (100:ℚ)⟩, ⟨"B", "Bob", (-100:ℚ)⟩] : List NetBalance).map
          (fun b => max b.balance 0)).sum
      ∧ ((∀ b ∈ ([⟨"A", "Alice", (100:ℚ)⟩, ⟨"B", "Bob", (-100:ℚ)⟩] : List NetBalance),
            b.balance = 0) →
          simplifySettlements [⟨"A", "Alice", (100:ℚ)⟩, ⟨"B", "Bob", (-100:ℚ)⟩] = []) :=
  C2_simplify_conservation_amended [⟨"A", "Alice", (100:ℚ)⟩, ⟨"B", "Bob", (-100:ℚ)⟩]
    (by
      intro b hb
      rcases List.mem_cons.mp hb with rfl | hb
      · exact ⟨100, by norm_num⟩
      · rcases List.mem_cons.mp hb with rfl | hb
        · exact ⟨-100, by norm_num⟩
        · simp at hb)
    (by simp)

/-- **C6.** On the obligations `A→B:100, B→C:50`, `getSimplifiedSettlements`
computes net balances `A:-100, B:+50, C:+50` and emits exactly
`[A pays B 50, A pays C 50]` in that order — the tie between the two equal
creditors broken by original encounter order (stable sort). -/
theorem C6_concrete_scenario :
    balanceOf (calculateNetBalances
        [⟨⟨"A", "Alice"⟩, ⟨"B", "Bob"⟩, 100⟩, ⟨⟨"B", "Bob"⟩, ⟨"C", "Cara"⟩, 50⟩]) "A"
        = some (-100)
      ∧ balanceOf (calculateNetBalances
        [⟨⟨"A", "Alice"⟩, ⟨"B", "Bob"⟩, 100⟩, ⟨⟨"B", "Bob"⟩, ⟨"C", "Cara"⟩, 50⟩]) "B"
        = some 50
      ∧ balanceOf (calculateNetBalances
        [⟨⟨"A", "Alice"⟩, ⟨"B", "Bob"⟩, 100⟩, ⟨⟨"B", "Bob"⟩, ⟨"C", "Cara"⟩, 50⟩]) "C"
        = some 50
      ∧ getSimplifiedSettlements
        [⟨⟨"A", "Alice"⟩, ⟨"B", "Bob"⟩, 100⟩, ⟨⟨"B", "Bob"⟩, ⟨"C", "Cara"⟩, 50⟩]
        = [⟨⟨"A", "Alice"⟩, ⟨"B", "Bob"⟩, 50⟩, ⟨⟨"A", "Alice"⟩, ⟨"C", "Cara"⟩, 50⟩] := by
  have hnet : calculateNetBalances
      [⟨⟨"A", "Alice"⟩, ⟨"B", "Bob"⟩, 100⟩, ⟨⟨"B", "Bob"⟩, ⟨"C", "Cara"⟩, 50⟩]
      = [⟨"A", "Alice", -100⟩, ⟨"B", "Bob", 50⟩, ⟨"C", "Cara", 50⟩] := by
    simp +decide [calculateNetBalances, applyObligation, setIfAbsent, addBalance,
      List.foldl, List.any]
    norm_num
  have hsimp : simplifySettlements
      [⟨"A", "Alice", -100⟩, ⟨"B", "Bob", 50⟩, ⟨"C", "Cara", 50⟩]
      = [⟨⟨"A", "Alice"⟩, ⟨"B", "Bob"⟩, 50⟩, ⟨⟨"A", "Alice"⟩, ⟨"C", "Cara"⟩, 50⟩] := by
    simp +decide [simplifySettlements, List.filter, List.insertionSort, List.orderedInsert]
    rw [greedyLoop.eq_def]
    norm_num [min_def, abs_of_nonpos, jsRound]
    rw [greedyLoop.eq_def]
    norm_num [min_def, abs_of_nonpos, jsRound]
    simp [greedyLoop]
  refine ⟨?_, ?_, ?_, ?_⟩
  · rw [hnet]
    simp +decide [balanceOf, List.find?]
  · rw [hnet]
    simp +decide [balanceOf, List.find?]
  · rw [hnet]
    simp +decide [balanceOf, List.find?]
  · rw [getSimplifiedSettlements, hnet, hsimp]

end SplitShare
